import Mathlib

/-!
Shallow embedding of the cronpy scheduling library (src/cronpy/cronpy.py).

Modelling conventions:
* A calendar date is a natural number counting days from an epoch that falls
  on a Monday, so `weekday d = d % 7` with Monday = 0, matching
  `datetime.date.weekday`.  Adding `datetime.timedelta(days = 1)` is `d + 1`.
* A time of day is a natural number; `datetime.time(h, m)` becomes
  `timeOf h m = h * 60 + m` (minutes since midnight), which preserves the
  order and equality of `datetime.time` values for in-range fields.
* A wall-clock instant (`datetime.datetime`) is a `DateTime`: a date paired
  with a time of day; `datetime.combine` is the pair constructor and the
  order on instants is lexicographic, as it is for Python datetimes.
* Python exceptions (ValueError, AssertionError, the scheduling Exception)
  are modelled by explicit error values.  Where Python mutates fields before
  raising, the model returns the partially mutated task next to the error.
* The bound work unit (`task_func`) is opaque; the only observable used by
  the claims is whether invoking it raises, modelled by the `fails` flag,
  and which task was invoked, recorded as the index of the task in the
  scheduler task list.
-/

namespace Cronpy

/-- Wall-clock instant: days since a Monday epoch, and time of day. -/
structure DateTime where
  date : Nat
  tod  : Nat
deriving DecidableEq

/-- Strict order on instants, lexicographic like Python datetime. -/
def dtLT (a b : DateTime) : Prop :=
  a.date < b.date ∨ (a.date = b.date ∧ a.tod < b.tod)

/-- Non-strict order on instants. -/
def dtLE (a b : DateTime) : Prop :=
  a.date < b.date ∨ (a.date = b.date ∧ a.tod ≤ b.tod)

instance (a b : DateTime) : Decidable (dtLT a b) :=
  inferInstanceAs (Decidable (_ ∨ _))

instance (a b : DateTime) : Decidable (dtLE a b) :=
  inferInstanceAs (Decidable (_ ∨ _))

/-- Model of `datetime.time(h, m)`: minutes since midnight. -/
def timeOf (h m : Nat) : Nat := h * 60 + m

/-- Python `min` over a list, `none` on the empty list (where Python raises
ValueError). -/
def listMin : List Nat → Option Nat
  | [] => none
  | x :: xs => some (xs.foldl Nat.min x)

/-- Python `max` over a nonempty list; the value on `[]` is irrelevant
because every use is guarded by a nonemptiness test, as in the source. -/
def listMax : List Nat → Nat
  | [] => 0
  | x :: xs => xs.foldl Nat.max x

/-- The three delimiter characters recognised by `re.findall("[:,-]", ...)`. -/
inductive Delim
  | dash
  | colon
  | comma
deriving DecidableEq

/-- A schedule spec string, in the tokenised form produced by
`re.split("[:,-]", s)` and `re.findall("[:,-]", s)`: a first integer
followed by delimiter/integer pairs.  This represents exactly the strings
of the shape `n (delim n)*` with nonnegative integer segments, which covers
every string the claims quantify over. -/
structure SpecStr where
  first : Nat
  rest : List (Delim × Nat)
deriving DecidableEq

/-- The integer segments, in order: `re.split("[:,-]", s)` plus `int`. -/
def specValues (s : SpecStr) : List Nat := s.first :: s.rest.map Prod.snd

/-- The delimiter occurrences, in order: `re.findall("[:,-]", s)`. -/
def specDelims (s : SpecStr) : List Delim := s.rest.map Prod.fst

/-- The distinct delimiter kinds: `set(re.findall("[:,-]", s))`. -/
def delimKinds (s : SpecStr) : List Delim := (specDelims s).dedup

/-- Task.DAYS. -/
def DAYS : List Nat := [0, 1, 2, 3, 4, 5, 6]

/-- Errors raised by `schedule_next_run` and its callees. -/
inductive SchedErr
  | emptyRunAt   -- ValueError from min of an empty run_at list
  | badDays      -- the weekday search loop never terminates
  | inPast       -- the scheduling invariant Exception
deriving DecidableEq

/-- Errors propagating out of `Task.run`. -/
inductive RunErr
  | workUnit              -- the bound work unit raised
  | sched (e : SchedErr)  -- rescheduling after the work unit raised
deriving DecidableEq

/-- Errors raised by the configuration API. -/
inductive CfgErr
  | mixedDelims
  | outOfDomain
  | rangeCount
  | inverted
  | conflict
  | badInterval
  | schedFail (e : SchedErr)
deriving DecidableEq

/-- The Task object.  `fails` models whether the bound work unit raises
when invoked; the remaining fields mirror `Task.__init__`. -/
structure Task where
  days : List Nat
  hours : List Nat
  minutes : List Nat
  run_at : List Nat
  next_run_date : Option Nat
  next_run_time : Option Nat
  last_run_at : Option DateTime
  fails : Bool
  configured : Bool
deriving DecidableEq

/-- Cron.new_task: a fresh unconfigured task. -/
def newTask : Task :=
  { days := [], hours := [], minutes := [], run_at := []
  , next_run_date := none, next_run_time := none, last_run_at := none
  , fails := false, configured := false }

/-- Task.next_run_at: `datetime.combine(next_run_date, next_run_time)`;
`none` models the TypeError Python raises when either field is unset. -/
def Task.nextRunAt (t : Task) : Option DateTime :=
  match t.next_run_date, t.next_run_time with
  | some d, some tm => some ⟨d, tm⟩
  | _, _ => none

/-- Task.should_run: `datetime.datetime.now() >= self.next_run_at`.  On an
unscheduled task Python would raise; registered tasks always have both
next-run fields set, so the `false` default is unreachable there. -/
def Task.shouldRun (t : Task) (now : DateTime) : Bool :=
  match t.nextRunAt with
  | some nr => decide (dtLE nr now)
  | none => false

/-- Sort key used by `Task.__lt__`; the default is unreachable for the
registered (hence scheduled) tasks that `sorted` ever compares. -/
def Task.sortKey (t : Task) : DateTime := t.nextRunAt.getD ⟨0, 0⟩

/-- Task.__lt__: compare scheduled next-run instants. -/
def taskLT (a b : Task) : Prop := dtLT a.sortKey b.sortKey

instance (a b : Task) : Decidable (taskLT a b) :=
  inferInstanceAs (Decidable (dtLT _ _))

/-- Task.calculate_next_run_time: the next time of day, given the run-at
list and the current time of day. -/
def nextRunTime (run_at : List Nat) (tod : Nat) : Option Nat :=
  let later := run_at.filter (fun x => tod ≤ x)
  if later = [] then listMin run_at else listMin later

/-- The weekday search loop `while next_run_date.weekday() not in self.days`.
The fuel argument models termination: seven steps visit every weekday, so
`none` at fuel 7 means the Python loop never terminates. -/
def seekDay (days : List Nat) : Nat → Nat → Option Nat
  | _, 0 => none
  | d, fuel + 1 => if d % 7 ∈ days then some d else seekDay days (d + 1) fuel

/-- Task.calculate_next_run_date. -/
def calcNextRunDate (days run_at : List Nat) (now : DateTime) : Option Nat :=
  if days = [] then some now.date
  else
    match seekDay days now.date 7 with
    | none => none
    | some d1 =>
      if run_at = [] then some d1
      else seekDay days (if listMax run_at < now.tod then d1 + 1 else d1) 7

/-- Task.schedule_next_run: compute next_run_time, then next_run_date, then
check the invariant `next_run_at >= now`.  Fields are written before the
check, as in the source, so the task next to an `inPast` error already
carries the stale schedule. -/
def Task.scheduleNextRun (t : Task) (now : DateTime) : Option SchedErr × Task :=
  match nextRunTime t.run_at now.tod with
  | none => (some .emptyRunAt, t)
  | some tm =>
    let t1 : Task := { t with next_run_time := some tm }
    match calcNextRunDate t1.days t1.run_at now with
    | none => (some .badDays, t1)
    | some d =>
      let t2 : Task := { t1 with next_run_date := some d }
      if dtLT ⟨d, tm⟩ now then (some .inPast, t2) else (none, t2)

/-- Task.run: invoke the work unit; on success record last_run_at and
reschedule.  A raising work unit leaves the task untouched. -/
def Task.run (t : Task) (now : DateTime) : Option RunErr × Task :=
  if t.fails then (some .workUnit, t)
  else
    let t1 : Task := { t with last_run_at := some now }
    match t1.scheduleNextRun now with
    | (some e, t2) => (some (.sched e), t2)
    | (none, t2) => (none, t2)

/-- Task.every_day. -/
def Task.everyDay (t : Task) : Task := { t with days := DAYS }

/-- Task.on_days: parse a day range or list and overwrite `days`.  The
checks appear in source order: delimiter uniqueness, the set difference
against DAYS, the count check, then the branch on the delimiter kind.  The
range branch stores `Task.DAYS[start : end + 1]`. -/
def Task.onDays (t : Task) (s : SpecStr) : Option CfgErr × Task :=
  if 1 < (delimKinds s).length then (some .mixedDelims, t)
  else
    let vals := specValues s
    if vals.any (fun v => decide (6 < v)) then (some .outOfDomain, t)
    else if 2 < vals.length ∧ Delim.comma ∉ specDelims s then (some .rangeCount, t)
    else if Delim.comma ∈ specDelims s then (none, { t with days := vals })
    else if 1 < vals.length then
      let a := vals.getD 0 0
      let b := vals.getD 1 0
      if b < a then (some .inverted, t)
      else (none, { t with days := (DAYS.drop a).take (b + 1 - a) })
    else (none, { t with days := vals })

/-- The parse block of Task.at_hours (lines after the weekday defaulting):
`assert min(hour_list) >= 0` always holds for natural number segments;
`assert max(hour_list) <= 23` is the domain check.  The range branch stores
`list(range(start, end + 1))`. -/
def parseHours (t0 : Task) (s : SpecStr) : Option CfgErr × Task :=
  if 1 < (delimKinds s).length then (some .mixedDelims, t0)
  else
    let vals := specValues s
    if ¬ listMax vals ≤ 23 then (some .outOfDomain, t0)
    else if 2 < vals.length ∧ Delim.comma ∉ specDelims s then (some .rangeCount, t0)
    else if Delim.comma ∈ specDelims s then (none, { t0 with hours := vals })
    else if 1 < vals.length then
      let a := vals.getD 0 0
      let b := vals.getD 1 0
      if b < a then (some .inverted, t0)
      else (none, { t0 with hours := List.range' a (b + 1 - a) })
    else (none, { t0 with hours := vals })

/-- Task.at_hours: default an empty weekday set to every day, then parse
the hour range or list. -/
def Task.atHours (t : Task) (s : SpecStr) : Option CfgErr × Task :=
  parseHours (if t.days = [] then t.everyDay else t) s

/-- The parse block of Task.at_minutes. -/
def parseMinutes (t0 : Task) (s : SpecStr) : Option CfgErr × Task :=
  if 1 < (delimKinds s).length then (some .mixedDelims, t0)
  else
    let vals := specValues s
    if ¬ listMax vals ≤ 59 then (some .outOfDomain, t0)
    else if 2 < vals.length ∧ Delim.comma ∉ specDelims s then (some .rangeCount, t0)
    else if Delim.comma ∈ specDelims s then (none, { t0 with minutes := vals })
    else if 1 < vals.length then
      let a := vals.getD 0 0
      let b := vals.getD 1 0
      if b < a then (some .inverted, t0)
      else (none, { t0 with minutes := List.range' a (b + 1 - a) })
    else (none, { t0 with minutes := vals })

/-- The defaulting prelude of Task.at_minutes: an empty weekday set becomes
every day, and an empty hour set becomes `at_hours("0-23")`. -/
def minutesPrelude (t : Task) : Task :=
  let t0 := if t.days = [] then t.everyDay else t
  if t0.hours = [] then (t0.atHours ⟨0, [(Delim.dash, 23)]⟩).2 else t0

/-- Task.at_minutes: the defaulting prelude, then parse the minute range or
list. -/
def Task.atMinutes (t : Task) (s : SpecStr) : Option CfgErr × Task :=
  parseMinutes (minutesPrelude t) s

/-- Task.hour_interval: `self.hours = list(range(0, 24))[::interval]`, the
elements of 0..23 at indices that are multiples of the interval; since the
element at index i is i, these are the multiples of the interval below 24. -/
def Task.hourInterval (t : Task) (n : Nat) : Option CfgErr × Task :=
  if 1 ≤ n ∧ n ≤ 24 then
    (none, { t with hours := (List.range 24).filter (fun i => decide (i % n = 0)) })
  else (some .badInterval, t)

/-- Task.minute_interval: `self.minutes = list(range(0, 60))[::interval]`. -/
def Task.minuteInterval (t : Task) (n : Nat) : Option CfgErr × Task :=
  if 1 ≤ n ∧ n ≤ 60 then
    (none, { t with minutes := (List.range 60).filter (fun i => decide (i % n = 0)) })
  else (some .badInterval, t)

/-- Task.at: default an empty weekday set to every day, range-check the
parsed hour and minute, and append the time slot.  The "HH:MM" string is
taken already split into its two integer fields. -/
def Task.at (t : Task) (hour minute : Nat) : Option CfgErr × Task :=
  let t0 := if t.days = [] then t.everyDay else t
  if hour ≤ 23 ∧ minute ≤ 59 then
    (none, { t0 with run_at := t0.run_at ++ [timeOf hour minute] })
  else (some .outOfDomain, t0)

/-- Cross product of hours and minutes in `itertools.product` order. -/
def crossTimes (hours minutes : List Nat) : List Nat :=
  hours.flatMap (fun h => minutes.map (fun m => timeOf h m))

/-- The materialisation prelude of Task.do: default an empty minute set to
[0] when hours are set, reject mixed explicit and hour/minute
specification, and build the run-at list from the cross product when hours
and minutes are both set. -/
def materialise (t : Task) : Option CfgErr × Task :=
  let t1 := if t.hours ≠ [] ∧ t.minutes = [] then { t with minutes := [0] } else t
  if t1.run_at ≠ [] ∧ t1.hours ≠ [] ∧ t1.minutes ≠ [] then (some .conflict, t1)
  else if t1.hours ≠ [] ∧ t1.minutes ≠ [] then
    (none, { t1 with run_at := crossTimes t1.hours t1.minutes })
  else (none, t1)

/-- Task.do: bind the work unit (its failure behaviour is the `fails` flag
of the task), materialise the run-at list, schedule the first run, then
append the task to the scheduler list and mark it configured.  The
scheduler list comes and goes as an explicit argument. -/
def doBind (t : Task) (cron : List Task) (now : DateTime) :
    Option CfgErr × Task × List Task :=
  match materialise t with
  | (some e, t1) => (some e, t1, cron)
  | (none, t2) =>
    match t2.scheduleNextRun now with
    | (some e, t3) => (some (.schedFail e), t3, cron)
    | (none, t3) =>
      let t4 : Task := { t3 with configured := true }
      (none, t4, cron ++ [t4])

/-- Indexing into the scheduler task list; the default is never reached for
the in-range indices produced by `dueIdx`. -/
def nth (ts : List Task) (i : Nat) : Task := ts.getD i newTask

/-- The due snapshot of Cron.run_pending: the generator
`(task for task in self.tasks if task.should_run)`, as the list of indices
of due tasks in registration order.  `sorted` consumes it entirely before
the first execution. -/
def dueIdx (ts : List Task) (now : DateTime) : List Nat :=
  (List.range ts.length).filter (fun i => (nth ts i).shouldRun now)

/-- `sorted(tasks_to_run)`: a stable sort of the snapshot by `Task.__lt__`,
i.e. by scheduled next-run instant. -/
def sortIdx (ts : List Task) (l : List Nat) : List Nat :=
  l.mergeSort (fun i j => ! decide (taskLT (nth ts j) (nth ts i)))

/-- One iteration of the `for task in sorted(tasks_to_run)` loop: a pending
exception aborts the loop; otherwise run the task, write it back, and record
the invocation. -/
def runStep (now : DateTime) (st : List Task × List Nat × Option RunErr)
    (i : Nat) : List Task × List Nat × Option RunErr :=
  match st.2.2 with
  | some _ => st
  | none =>
    let (e, t1) := (nth st.1 i).run now
    (st.1.set i t1, st.2.1 ++ [i], e)

/-- Cron.run_pending: snapshot the due tasks, sort the snapshot, execute in
order.  Returns the updated task list, the invoked task indices in order,
and the exception, if any, that propagated out of the call. -/
def runPending (ts : List Task) (now : DateTime) :
    List Task × List Nat × Option RunErr :=
  (sortIdx ts (dueIdx ts now)).foldl (runStep now) (ts, [], none)

/-- r is the least date at or after start whose weekday lies in days. -/
def isLeastDay (days : List Nat) (start r : Nat) : Prop :=
  start ≤ r ∧ r % 7 ∈ days ∧ ∀ e, start ≤ e → e % 7 ∈ days → r ≤ e

/-- Modelled from the closed form asserted by the next-run date claim: the
least date not earlier than (today plus one day when the current time of
day exceeds the maximum run-at slot, else today) whose weekday is in the
set.  Defined for comparison with `calcNextRunDate`, which embeds the
source. -/
def claimNextRunDate (days run_at : List Nat) (now : DateTime) : Option Nat :=
  seekDay days (if listMax run_at < now.tod then now.date + 1 else now.date) 7

/-- A well-configured, well-behaved registered task: its work unit returns
normally, its run-at list is nonempty, its weekday list contains a genuine
weekday, and it carries a scheduled next-run instant. -/
def TaskOK (t : Task) : Prop :=
  t.fails = false ∧ t.run_at ≠ [] ∧ (∃ k ∈ t.days, k < 7) ∧ t.nextRunAt.isSome

instance (t : Task) : Decidable (TaskOK t) :=
  inferInstanceAs (Decidable (t.fails = false ∧ t.run_at ≠ [] ∧
    (∃ k ∈ t.days, k < 7) ∧ t.nextRunAt.isSome))

/-- The spec string encodes the two-value range A-B or A:B. -/
def isRange (s : SpecStr) (A B : Nat) : Prop :=
  s.first = A ∧ (s.rest = [(Delim.dash, B)] ∨ s.rest = [(Delim.colon, B)])

/-- The spec string is a comma-separated list. -/
def isCommaList (s : SpecStr) : Prop := ∀ p ∈ s.rest, p.1 = Delim.comma

/-- The spec string mixes two delimiter kinds. -/
def mixesDelims (s : SpecStr) : Prop :=
  ∃ d1 ∈ specDelims s, ∃ d2 ∈ specDelims s, d1 ≠ d2

/-- The behaviour the schedule-spec parsing claim asserts of one range/list
setter over its domain bound: ranges yield the closed interval, comma lists
yield the listed values, a bare value yields a singleton, and mixed
delimiters, over-long ranges, inverted ranges and out-of-domain values all
raise. -/
def setterSpec (f : Task → SpecStr → Option CfgErr × Task)
    (proj : Task → List Nat) (bound : Nat) : Prop :=
  (∀ t A B s, isRange s A B → A ≤ B → B ≤ bound →
    (f t s).1 = none ∧ proj (f t s).2 = List.range' A (B + 1 - A)) ∧
  (∀ t s, isCommaList s → s.rest ≠ [] → (∀ v ∈ specValues s, v ≤ bound) →
    (f t s).1 = none ∧ proj (f t s).2 = specValues s) ∧
  (∀ t v, v ≤ bound →
    (f t ⟨v, []⟩).1 = none ∧ proj (f t ⟨v, []⟩).2 = [v]) ∧
  (∀ t s, mixesDelims s → ((f t s).1).isSome) ∧
  (∀ t s, (∃ d ∈ specDelims s, d ≠ Delim.comma) → 2 < (specValues s).length →
    ((f t s).1).isSome) ∧
  (∀ t s A B, isRange s A B → B < A → ((f t s).1).isSome) ∧
  (∀ t s, (∃ v ∈ specValues s, bound < v) → ((f t s).1).isSome)

/-- Concrete task used by witnesses and counterexamples: run every day at
11:30, scheduled next for date 7 (a Monday) at 11:30. -/
def wTask : Task :=
  { days := [0, 1, 2, 3, 4, 5, 6], hours := [], minutes := []
  , run_at := [timeOf 11 30]
  , next_run_date := some 7, next_run_time := some (timeOf 11 30)
  , last_run_at := none, fails := false, configured := true }

/-- Concrete task whose work unit raises, used by witnesses: same schedule
as wTask. -/
def fTask : Task :=
  { days := [0, 1, 2, 3, 4, 5, 6], hours := [], minutes := []
  , run_at := [timeOf 11 30]
  , next_run_date := some 7, next_run_time := some (timeOf 11 30)
  , last_run_at := none, fails := true, configured := true }

/-! Facts about Python min and max over lists. -/

theorem foldl_min_le_init : ∀ (xs : List Nat) (a : Nat), xs.foldl Nat.min a ≤ a
  | [], _ => Nat.le_refl _
  | x :: xs, a =>
    Nat.le_trans (foldl_min_le_init xs (Nat.min a x)) (Nat.min_le_left a x)

theorem foldl_min_le_mem :
    ∀ (xs : List Nat) (a y : Nat), y ∈ xs → xs.foldl Nat.min a ≤ y := by
  intro xs
  induction xs with
  | nil => intro a y h; cases h
  | cons x xs ih =>
    intro a y h
    rcases List.mem_cons.mp h with h | h
    · subst h
      exact Nat.le_trans (foldl_min_le_init xs (Nat.min a y)) (Nat.min_le_right a y)
    · exact ih (Nat.min a x) y h

theorem foldl_min_mem :
    ∀ (xs : List Nat) (a : Nat), xs.foldl Nat.min a = a ∨ xs.foldl Nat.min a ∈ xs := by
  intro xs
  induction xs with
  | nil => intro a; exact Or.inl rfl
  | cons x xs ih =>
    intro a
    rcases ih (Nat.min a x) with h | h
    · rw [List.foldl_cons, h]
      rcases Nat.le_total a x with hax | hxa
      · exact Or.inl (by unfold Nat.min; omega)
      · have hx : Nat.min a x = x := by unfold Nat.min; omega
        rw [hx]
        exact Or.inr (List.mem_cons_self x xs)
    · exact Or.inr (List.mem_cons_of_mem x h)

theorem listMin_eq_some {l : List Nat} (h : l ≠ []) : ∃ m, listMin l = some m := by
  cases l with
  | nil => exact absurd rfl h
  | cons x xs => exact ⟨xs.foldl Nat.min x, rfl⟩

theorem listMin_mem {l : List Nat} {m : Nat} (h : listMin l = some m) : m ∈ l := by
  cases l with
  | nil => simp [listMin] at h
  | cons x xs =>
    simp only [listMin, Option.some.injEq] at h
    subst h
    rcases foldl_min_mem xs x with h | h
    · rw [h]; exact List.mem_cons_self x xs
    · exact List.mem_cons_of_mem x h

theorem listMin_le {l : List Nat} {m : Nat} (h : listMin l = some m) :
    ∀ y ∈ l, m ≤ y := by
  cases l with
  | nil => simp [listMin] at h
  | cons x xs =>
    simp only [listMin, Option.some.injEq] at h
    subst h
    intro y hy
    rcases List.mem_cons.mp hy with hy | hy
    · subst hy; exact foldl_min_le_init xs y
    · exact foldl_min_le_mem xs x y hy

theorem init_le_foldl_max : ∀ (xs : List Nat) (a : Nat), a ≤ xs.foldl Nat.max a
  | [], _ => Nat.le_refl _
  | x :: xs, a =>
    Nat.le_trans (Nat.le_max_left a x) (init_le_foldl_max xs (Nat.max a x))

theorem mem_le_foldl_max :
    ∀ (xs : List Nat) (a y : Nat), y ∈ xs → y ≤ xs.foldl Nat.max a := by
  intro xs
  induction xs with
  | nil => intro a y h; cases h
  | cons x xs ih =>
    intro a y h
    rcases List.mem_cons.mp h with h | h
    · subst h
      exact Nat.le_trans (Nat.le_max_right a y) (init_le_foldl_max xs (Nat.max a y))
    · exact ih (Nat.max a x) y h

theorem foldl_max_mem :
    ∀ (xs : List Nat) (a : Nat), xs.foldl Nat.max a = a ∨ xs.foldl Nat.max a ∈ xs := by
  intro xs
  induction xs with
  | nil => intro a; exact Or.inl rfl
  | cons x xs ih =>
    intro a
    rcases ih (Nat.max a x) with h | h
    · rw [List.foldl_cons, h]
      rcases Nat.le_total a x with hax | hxa
      · have hx : Nat.max a x = x := by unfold Nat.max; omega
        rw [hx]
        exact Or.inr (List.mem_cons_self x xs)
      · exact Or.inl (by unfold Nat.max; omega)
    · exact Or.inr (List.mem_cons_of_mem x h)

theorem le_listMax {l : List Nat} {y : Nat} (h : y ∈ l) : y ≤ listMax l := by
  cases l with
  | nil => cases h
  | cons x xs =>
    rcases List.mem_cons.mp h with h | h
    · subst h; exact init_le_foldl_max xs y
    · exact mem_le_foldl_max xs x y h

theorem listMax_mem {l : List Nat} (h : l ≠ []) : listMax l ∈ l := by
  cases l with
  | nil => exact absurd rfl h
  | cons x xs =>
    rcases foldl_max_mem xs x with h | h
    · rw [listMax, h]; exact List.mem_cons_self x xs
    · exact List.mem_cons_of_mem x h

theorem listMax_le {l : List Nat} {b : Nat} (h : ∀ y ∈ l, y ≤ b) :
    listMax l ≤ b := by
  cases l with
  | nil => exact Nat.zero_le b
  | cons x xs =>
    have := listMax_mem (l := x :: xs) (by simp)
    exact h _ this

/-! Facts about the weekday search loop. -/

theorem seekDay_self {days : List Nat} {d : Nat} (h : d % 7 ∈ days)
    (fuel : Nat) : seekDay days d (fuel + 1) = some d := by
  simp [seekDay, h]

theorem seekDay_found (days : List Nat) :
    ∀ (fuel d : Nat), (∃ j, j < fuel ∧ (d + j) % 7 ∈ days) →
    ∃ r, seekDay days d fuel = some r ∧ isLeastDay days d r := by
  intro fuel
  induction fuel with
  | zero =>
    intro d h
    obtain ⟨j, hj, _⟩ := h
    omega
  | succ fuel ih =>
    intro d h
    obtain ⟨j, hj, hmem⟩ := h
    by_cases hd : d % 7 ∈ days
    · exact ⟨d, seekDay_self hd fuel, Nat.le_refl d, hd, fun e he _ => he⟩
    · have hj0 : j ≠ 0 := by
        intro h0
        subst h0
        simp only [Nat.add_zero] at hmem
        exact hd hmem
      obtain ⟨r, hr, hle, hmem2, hmin⟩ := ih (d + 1)
        ⟨j - 1, by omega, by
          have hadd : d + 1 + (j - 1) = d + j := by omega
          rw [hadd]; exact hmem⟩
      refine ⟨r, ?_, by omega, hmem2, ?_⟩
      · simpa [seekDay, hd] using hr
      · intro e he hmeme
        have hne : e ≠ d := by
          intro hed
          subst hed
          exact hd hmeme
        exact hmin e (by omega) hmeme

theorem weekday_reachable {days : List Nat} (h : ∃ k ∈ days, k < 7) (d : Nat) :
    ∃ j, j < 7 ∧ (d + j) % 7 ∈ days := by
  obtain ⟨k, hk, hk7⟩ := h
  refine ⟨(7 + k - d % 7) % 7, Nat.mod_lt _ (by norm_num), ?_⟩
  have h2 : (d + (7 + k - d % 7) % 7) % 7 = k := by omega
  rw [h2]
  exact hk

theorem seekDay_spec {days : List Nat} (h : ∃ k ∈ days, k < 7) (d : Nat) :
    ∃ r, seekDay days d 7 = some r ∧ isLeastDay days d r :=
  seekDay_found days 7 d (weekday_reachable h d)

theorem isLeastDay_unique {days : List Nat} {s r1 r2 : Nat}
    (h1 : isLeastDay days s r1) (h2 : isLeastDay days s r2) : r1 = r2 :=
  Nat.le_antisymm (h1.2.2 r2 h2.1 h2.2.1) (h2.2.2 r1 h1.1 h1.2.1)

/-! Facts about the next-run time computation. -/

theorem nextRunTime_spec (run_at : List Nat) (tod : Nat) (h : run_at ≠ []) :
    ∃ r, nextRunTime run_at tod = some r ∧ r ∈ run_at ∧
      ((∃ x ∈ run_at, tod ≤ x) → tod ≤ r ∧ ∀ x ∈ run_at, tod ≤ x → r ≤ x) ∧
      ((∀ x ∈ run_at, x < tod) → ∀ x ∈ run_at, r ≤ x) := by
  unfold nextRunTime
  by_cases hl : run_at.filter (fun x => decide (tod ≤ x)) = []
  · obtain ⟨m, hm⟩ := listMin_eq_some h
    refine ⟨m, by simp [hl, hm], listMin_mem hm, ?_, ?_⟩
    · intro hx
      obtain ⟨x, hx1, hx2⟩ := hx
      have := List.filter_eq_nil_iff.mp hl x hx1
      simp at this
      omega
    · intro _
      exact listMin_le hm
  · obtain ⟨m, hm⟩ := listMin_eq_some hl
    have hmem := listMin_mem hm
    rw [List.mem_filter] at hmem
    obtain ⟨hmem1, hmem2⟩ := hmem
    have htod : tod ≤ m := by simpa using hmem2
    refine ⟨m, by simp [hl, hm], hmem1, ?_, ?_⟩
    · intro _
      refine ⟨htod, fun x hx1 hx2 => ?_⟩
      exact listMin_le hm x (List.mem_filter.mpr ⟨hx1, by simpa using hx2⟩)
    · intro hall
      have := hall m hmem1
      omega

/-! Characterisation of the next-run date computation on valid weekday
lists: the code first seeks the least allowed date from today, and when the
current time of day is past every slot it seeks again strictly beyond that
first result. -/

theorem calcNextRunDate_eq (days run_at : List Nat) (now : DateTime)
    (hd : ∃ k ∈ days, k < 7) (hr : run_at ≠ []) :
    ∃ d1 d2, isLeastDay days now.date d1 ∧ isLeastDay days (d1 + 1) d2 ∧
      calcNextRunDate days run_at now =
        some (if listMax run_at < now.tod then d2 else d1) := by
  have hdne : days ≠ [] := by
    obtain ⟨k, hk, _⟩ := hd
    exact List.ne_nil_of_mem hk
  obtain ⟨d1, hseek1, hL1⟩ := seekDay_spec hd now.date
  obtain ⟨d2, hseek2, hL2⟩ := seekDay_spec hd (d1 + 1)
  refine ⟨d1, d2, hL1, hL2, ?_⟩
  unfold calcNextRunDate
  rw [if_neg hdne]
  simp only [hseek1, if_neg hr]
  by_cases hmax : listMax run_at < now.tod
  · rw [if_pos hmax, if_pos hmax]
    exact hseek2
  · rw [if_neg hmax, if_neg hmax]
    simpa using seekDay_self hL1.2.1 6

/-! Success of schedule_next_run for a task with a nonempty run-at list and
a genuine weekday in its day list: the computed instant is never in the
past, and equals the current instant only when the current time of day is
itself a run-at slot. -/

theorem scheduleNextRun_ok (t : Task) (now : DateTime)
    (hr : t.run_at ≠ []) (hd : ∃ k ∈ t.days, k < 7) :
    ∃ d tm, t.scheduleNextRun now =
      (none, { t with next_run_time := some tm, next_run_date := some d }) ∧
      tm ∈ t.run_at ∧ dtLE now ⟨d, tm⟩ ∧
      (DateTime.mk d tm = now → now.tod ∈ t.run_at) := by
  obtain ⟨tm, htm, hmem, hup, _⟩ := nextRunTime_spec t.run_at now.tod hr
  obtain ⟨d1, d2, hL1, hL2, hcalc⟩ := calcNextRunDate_eq t.days t.run_at now hd hr
  by_cases hmax : listMax t.run_at < now.tod
  · rw [if_pos hmax] at hcalc
    have hdate : now.date < d2 := by
      have h1 := hL1.1
      have h2 := hL2.1
      omega
    refine ⟨d2, tm, ?_, hmem, Or.inl hdate, ?_⟩
    · unfold Task.scheduleNextRun
      simp only [htm, hcalc]
      rw [if_neg (by unfold dtLT; simp; omega)]
    · intro heq
      have : d2 = now.date := by rw [← heq]
      omega
  · rw [if_neg hmax] at hcalc
    have hmaxmem := listMax_mem hr
    obtain ⟨htm2, _⟩ := hup ⟨listMax t.run_at, hmaxmem, by omega⟩
    have hdate : now.date ≤ d1 := hL1.1
    refine ⟨d1, tm, ?_, hmem, ?_, ?_⟩
    · unfold Task.scheduleNextRun
      simp only [htm, hcalc]
      rw [if_neg (by unfold dtLT; simp; omega)]
    · unfold dtLE
      simp
      omega
    · intro heq
      have : tm = now.tod := by rw [← heq]
      rw [← this]
      exact hmem

/-! The fields of a task untouched by schedule_next_run. -/

theorem scheduleNextRun_fields (t : Task) (now : DateTime) :
    ((t.scheduleNextRun now).2).days = t.days ∧
    ((t.scheduleNextRun now).2).hours = t.hours ∧
    ((t.scheduleNextRun now).2).minutes = t.minutes ∧
    ((t.scheduleNextRun now).2).run_at = t.run_at ∧
    ((t.scheduleNextRun now).2).fails = t.fails ∧
    ((t.scheduleNextRun now).2).last_run_at = t.last_run_at ∧
    ((t.scheduleNextRun now).2).configured = t.configured := by
  unfold Task.scheduleNextRun
  cases nextRunTime t.run_at now.tod with
  | none => simp
  | some tm =>
    simp only []
    cases calcNextRunDate t.days t.run_at now with
    | none => simp
    | some d =>
      simp only []
      by_cases h : dtLT ⟨d, tm⟩ now
      · rw [if_pos h]
        simp
      · rw [if_neg h]
        simp

/-! Success of Task.run for a well-behaved task. -/

theorem run_ok (t : Task) (now : DateTime) (hf : t.fails = false)
    (hr : t.run_at ≠ []) (hd : ∃ k ∈ t.days, k < 7) :
    ∃ d tm, t.run now =
      (none, { t with last_run_at := some now,
                      next_run_time := some tm, next_run_date := some d }) ∧
      tm ∈ t.run_at ∧ dtLE now ⟨d, tm⟩ ∧
      (DateTime.mk d tm = now → now.tod ∈ t.run_at) := by
  obtain ⟨d, tm, hs, hmem, hle, heq⟩ :=
    scheduleNextRun_ok { t with last_run_at := some now } now hr hd
  refine ⟨d, tm, ?_, hmem, hle, heq⟩
  unfold Task.run
  rw [hf] at hs ⊢
  simp [hs]

/-! A basic order fact about instants. -/

theorem dtLE_antisymm_ne {a b : DateTime} (h1 : dtLE a b) (h2 : a ≠ b) :
    ¬ dtLE b a := by
  obtain ⟨a1, a2⟩ := a
  obtain ⟨b1, b2⟩ := b
  unfold dtLE at h1 ⊢
  dsimp only at h1 ⊢
  have h3 : a1 ≠ b1 ∨ a2 ≠ b2 := by
    by_contra hcon
    push_neg at hcon
    exact h2 (by rw [hcon.1, hcon.2])
  omega

/-! Indexing and update facts for the scheduler task list. -/

theorem nth_set_ne (ts : List Task) (i j : Nat) (x : Task) (h : i ≠ j) :
    nth (ts.set i x) j = nth ts j := by
  unfold nth
  simp [List.getD_eq_getElem?_getD, List.getElem?_set_ne h]

theorem nth_set_self (ts : List Task) (i : Nat) (x : Task) (h : i < ts.length) :
    nth (ts.set i x) i = x := by
  unfold nth
  simp [List.getD_eq_getElem?_getD, List.getElem?_set_self, h]

/-! Facts about the due snapshot. -/

theorem mem_dueIdx {ts : List Task} {now : DateTime} {i : Nat} :
    i ∈ dueIdx ts now ↔ i < ts.length ∧ (nth ts i).shouldRun now = true := by
  simp [dueIdx, List.mem_filter, List.mem_range]

theorem dueIdx_nodup (ts : List Task) (now : DateTime) : (dueIdx ts now).Nodup :=
  (List.nodup_range _).filter _

theorem dueIdx_sorted (ts : List Task) (now : DateTime) :
    (dueIdx ts now).Pairwise (· < ·) :=
  (List.pairwise_lt_range _).filter _

/-! Facts about the stable sort of the snapshot. -/

theorem idxLE_trans (ts : List Task) : ∀ (a b c : Nat),
    (! decide (taskLT (nth ts b) (nth ts a))) = true →
    (! decide (taskLT (nth ts c) (nth ts b))) = true →
    (! decide (taskLT (nth ts c) (nth ts a))) = true := by
  intro a b c h1 h2
  simp only [Bool.not_eq_true', decide_eq_false_iff_not] at h1 h2 ⊢
  unfold taskLT dtLT at h1 h2 ⊢
  omega

theorem idxLE_total (ts : List Task) : ∀ (a b : Nat),
    ((! decide (taskLT (nth ts b) (nth ts a))) ||
     (! decide (taskLT (nth ts a) (nth ts b)))) = true := by
  intro a b
  simp only [Bool.or_eq_true, Bool.not_eq_true', decide_eq_false_iff_not]
  unfold taskLT dtLT
  omega

theorem sortIdx_perm (ts : List Task) (l : List Nat) :
    (sortIdx ts l).Perm l :=
  List.mergeSort_perm l _

theorem sortIdx_sorted (ts : List Task) (l : List Nat) :
    (sortIdx ts l).Pairwise
      (fun i j => (! decide (taskLT (nth ts j) (nth ts i))) = true) :=
  List.sorted_mergeSort (idxLE_trans ts) (idxLE_total ts) l

theorem sortIdx_stable {ts : List Task} {l : List Nat} {a b : Nat}
    (hab : (! decide (taskLT (nth ts b) (nth ts a))) = true)
    (h : List.Sublist [a, b] l) : List.Sublist [a, b] (sortIdx ts l) :=
  List.pair_sublist_mergeSort (idxLE_trans ts) (idxLE_total ts) hab h

/-! Ordered-pair extraction from sorted and duplicate-free lists. -/

theorem pair_sublist_of_pairwise_lt {l : List Nat} {x y : Nat}
    (hp : l.Pairwise (· < ·)) (hx : x ∈ l) (hy : y ∈ l) (hxy : x < y) :
    List.Sublist [x, y] l := by
  induction l with
  | nil => cases hx
  | cons a rest ih =>
    rcases List.mem_cons.mp hx with hxa | hxr
    · subst hxa
      have hyr : y ∈ rest := by
        rcases List.mem_cons.mp hy with hya | hyr
        · omega
        · exact hyr
      exact List.Sublist.cons₂ x (List.singleton_sublist.mpr hyr)
    · have hyr : y ∈ rest := by
        rcases List.mem_cons.mp hy with hya | hyr
        · subst hya
          have := List.rel_of_pairwise_cons hp hxr
          omega
        · exact hyr
      exact List.Sublist.cons a (ih hp.of_cons hxr hyr)

theorem sublist_pair_antisymm {x y : Nat} : ∀ {l : List Nat}, l.Nodup →
    List.Sublist [x, y] l → List.Sublist [y, x] l → x = y := by
  intro l
  induction l with
  | nil =>
    intro _ h1 _
    cases h1
  | cons a rest ih =>
    intro hnd h1 h2
    have hna : a ∉ rest := (List.nodup_cons.mp hnd).1
    have hnr : rest.Nodup := (List.nodup_cons.mp hnd).2
    cases h1 with
    | cons _ h1' =>
      cases h2 with
      | cons _ h2' => exact ih hnr h1' h2'
      | cons₂ _ h2' =>
        -- the head matched y, so y cannot also occur inside rest
        have hyr : y ∈ rest := h1'.mem (by simp)
        exact absurd hyr hna
    | cons₂ _ h1' =>
      -- the head matched x
      cases h2 with
      | cons _ h2' =>
        have hxr : x ∈ rest := h2'.mem (by simp)
        exact absurd hxr hna
      | cons₂ _ h2' => rfl

theorem not_pair_self_sublist {l : List Nat} {x : Nat} (hnd : l.Nodup) :
    ¬ List.Sublist [x, x] l := by
  intro h
  have hc := h.count_le x
  simp [List.count_cons] at hc
  have := List.nodup_iff_count_le_one.mp hnd x
  omega

/-! Behaviour of the execution loop of run_pending. -/

theorem foldl_runStep_err (now : DateTime) (e : RunErr) :
    ∀ (l : List Nat) (ts : List Task) (evs : List Nat),
    l.foldl (runStep now) (ts, evs, some e) = (ts, evs, some e) := by
  intro l
  induction l with
  | nil =>
    intro ts evs
    rfl
  | cons i l ih =>
    intro ts evs
    rw [List.foldl_cons]
    exact ih ts evs

theorem run_ok_basic (t : Task) (now : DateTime) (h : TaskOK t) :
    ∃ t2, t.run now = (none, t2) ∧ TaskOK t2 := by
  obtain ⟨hf, hr, hd, _⟩ := h
  obtain ⟨d, tm, hrun, -, -, -⟩ := run_ok t now hf hr hd
  refine ⟨_, hrun, hf, hr, hd, ?_⟩
  simp [Task.nextRunAt]

theorem foldl_runStep_ok (now : DateTime) :
    ∀ (l : List Nat) (ts : List Task) (evs : List Nat),
    (∀ i ∈ l, i < ts.length ∧ TaskOK (nth ts i)) →
    ∃ ts2, l.foldl (runStep now) (ts, evs, none) = (ts2, evs ++ l, none) ∧
      ts2.length = ts.length ∧ ∀ j, j ∉ l → nth ts2 j = nth ts j := by
  intro l
  induction l with
  | nil =>
    intro ts evs _
    exact ⟨ts, by simp, rfl, fun _ _ => rfl⟩
  | cons i l ih =>
    intro ts evs h
    obtain ⟨hlen, hok⟩ := h i (List.mem_cons_self i l)
    obtain ⟨t2, hrun, hok2⟩ := run_ok_basic (nth ts i) now hok
    rw [List.foldl_cons]
    have hstep : runStep now (ts, evs, none) i =
        (ts.set i t2, evs ++ [i], none) := by
      simp [runStep, hrun]
    rw [hstep]
    have hnext : ∀ j ∈ l, j < (ts.set i t2).length ∧
        TaskOK (nth (ts.set i t2) j) := by
      intro j hj
      obtain ⟨hjlen, hjok⟩ := h j (List.mem_cons_of_mem i hj)
      refine ⟨by simpa using hjlen, ?_⟩
      by_cases hij : i = j
      · subst hij
        rw [nth_set_self ts i _ hlen]
        exact hok2
      · rw [nth_set_ne ts i j _ hij]
        exact hjok
    obtain ⟨ts2, hfold, hlen2, hpres⟩ := ih _ (evs ++ [i]) hnext
    refine ⟨ts2, ?_, ?_, ?_⟩
    · rw [hfold]
      simp
    · rw [hlen2]
      simp
    · intro j hj
      have hj1 : j ∉ l := fun hh => hj (List.mem_cons_of_mem i hh)
      have hj2 : j ≠ i := fun hh => hj (hh ▸ List.mem_cons_self i l)
      rw [hpres j hj1, nth_set_ne ts i j _ (fun hh => hj2 hh.symm)]

/-! Claim theorems. -/

/-- C1, counterexample: the claim asserts that for every task with nonempty
weekday and run-at sets the computed next-run date equals the least date
not earlier than (today plus one day when the time of day exceeds the
maximum run-at slot, else today) whose weekday is in the set.  With weekday
set Wednesday only, one run-at slot at midnight, and the clock at Monday
(date 0) just past midnight, the code answers date 9 (Wednesday of the
following week) while the least date at or after Tuesday (date 1) with a
Wednesday weekday is date 2, so the claim is false. -/
theorem c1_counterexample :
    calcNextRunDate [2] [0] ⟨0, 5⟩ = some 9 ∧
    claimNextRunDate [2] [0] ⟨0, 5⟩ = some 2 ∧
    isLeastDay [2] (0 + 1) 2 ∧
    calcNextRunDate [2] [0] ⟨0, 5⟩ ≠ claimNextRunDate [2] [0] ⟨0, 5⟩ := by
  refine ⟨by decide, by decide, ⟨by decide, by decide, ?_⟩, by decide⟩
  intro e he hmem
  simp at hmem
  omega

/-- C1, amended: for every task with a weekday set containing a genuine
weekday and a nonempty run-at set, the computed next-run date is obtained
in two stages: first the least date d1 at or after today whose weekday is
in the set, and then, when the current time of day is strictly after the
maximum run-at slot, the least date at or after d1 + 1 whose weekday is in
the set (so the advance restarts after the first hit, not after today). -/
theorem c1_amended_next_run_date (days run_at : List Nat) (now : DateTime)
    (hd : ∃ k ∈ days, k < 7) (hr : run_at ≠ []) :
    ∃ d1 d2, isLeastDay days now.date d1 ∧ isLeastDay days (d1 + 1) d2 ∧
      calcNextRunDate days run_at now =
        some (if listMax run_at < now.tod then d2 else d1) :=
  calcNextRunDate_eq days run_at now hd hr

/-- Witness for the amended C1 statement at the counterexample input. -/
theorem c1_amended_witness :
    (∃ k ∈ [2], k < 7) ∧ ([0] : List Nat) ≠ [] ∧
    (∃ d1 d2, isLeastDay [2] (DateTime.mk 0 5).date d1 ∧
      isLeastDay [2] (d1 + 1) d2 ∧
      calcNextRunDate [2] [0] ⟨0, 5⟩ =
        some (if listMax [0] < (DateTime.mk 0 5).tod then d2 else d1)) :=
  ⟨by decide, by decide,
    c1_amended_next_run_date [2] [0] ⟨0, 5⟩ (by decide) (by decide)⟩

/-- C2: for every nonempty run-at set and current time of day t, the
computed next-run time is the minimum of the slots at or after t when any
exist, and otherwise the minimum of the whole run-at set. -/
theorem c2_next_run_time (run_at : List Nat) (t : Nat) (h : run_at ≠ []) :
    ∃ r, nextRunTime run_at t = some r ∧
      ((∃ x ∈ run_at, t ≤ x) →
        r ∈ run_at ∧ t ≤ r ∧ ∀ x ∈ run_at, t ≤ x → r ≤ x) ∧
      ((∀ x ∈ run_at, x < t) →
        r ∈ run_at ∧ ∀ x ∈ run_at, r ≤ x) := by
  obtain ⟨r, hr, hmem, hup, hdown⟩ := nextRunTime_spec run_at t h
  exact ⟨r, hr, fun hx => ⟨hmem, (hup hx).1, (hup hx).2⟩,
    fun hall => ⟨hmem, hdown hall⟩⟩

/-- Witness for C2: slots 30 and 10 with the clock at 20 pick 30, the next
upcoming slot. -/
theorem c2_witness :
    ([30, 10] : List Nat) ≠ [] ∧
    (∃ r, nextRunTime [30, 10] 20 = some r ∧
      ((∃ x ∈ [30, 10], 20 ≤ x) →
        r ∈ [30, 10] ∧ 20 ≤ r ∧ ∀ x ∈ [30, 10], 20 ≤ x → r ≤ x) ∧
      ((∀ x ∈ [30, 10], x < 20) →
        r ∈ [30, 10] ∧ ∀ x ∈ [30, 10], r ≤ x)) :=
  ⟨by decide, c2_next_run_time [30, 10] 20 (by decide)⟩

/-- C10: the interval setters never touch the weekday set; with an empty
weekday set the next-run date computation returns today unconditionally;
hence at any scheduling instant whose time of day is strictly after every
run-at slot, the rolled-over next-run instant is in the past and
schedule_next_run raises the invariant-violation exception instead of
moving to the next day. -/
theorem c10_interval_weekday_gap :
    (∀ (t : Task) (n : Nat), ((t.hourInterval n).2).days = t.days) ∧
    (∀ (t : Task) (n : Nat), ((t.minuteInterval n).2).days = t.days) ∧
    (∀ (run_at : List Nat) (now : DateTime),
      calcNextRunDate [] run_at now = some now.date) ∧
    (∀ (t : Task) (now : DateTime), t.days = [] → t.run_at ≠ [] →
      (∀ x ∈ t.run_at, x < now.tod) →
      (t.scheduleNextRun now).1 = some SchedErr.inPast) := by
  refine ⟨?_, ?_, ?_, ?_⟩
  · intro t n
    unfold Task.hourInterval
    split <;> rfl
  · intro t n
    unfold Task.minuteInterval
    split <;> rfl
  · intro run_at now
    unfold calcNextRunDate
    simp
  · intro t now hdays hra hall
    obtain ⟨m, hm⟩ := listMin_eq_some hra
    have hfl : t.run_at.filter (fun x => decide (now.tod ≤ x)) = [] := by
      rw [List.filter_eq_nil_iff]
      intro x hx
      simp
      exact hall x hx
    have htm : nextRunTime t.run_at now.tod = some m := by
      unfold nextRunTime
      simp [hfl, hm]
    have hmlt : m < now.tod := hall m (listMin_mem hm)
    have hcalc : calcNextRunDate t.days t.run_at now = some now.date := by
      unfold calcNextRunDate
      simp [hdays]
    unfold Task.scheduleNextRun
    simp only [htm, hcalc]
    rw [if_pos (show dtLT ⟨now.date, m⟩ now from Or.inr ⟨rfl, hmlt⟩)]

/-- Witness for C10: hours every six hours, minutes defaulted to zero, no
weekday set; at time of day 1081 (one minute past 18:00) every slot has
elapsed and scheduling raises. -/
theorem c10_witness :
    (Task.mk [] [0, 6, 12, 18] [0] [0, 360, 720, 1080]
        none none none false false).days = [] ∧
    (Task.mk [] [0, 6, 12, 18] [0] [0, 360, 720, 1080]
        none none none false false).run_at ≠ [] ∧
    (∀ x ∈ (Task.mk [] [0, 6, 12, 18] [0] [0, 360, 720, 1080]
        none none none false false).run_at, x < (DateTime.mk 3 1081).tod) ∧
    ((Task.mk [] [0, 6, 12, 18] [0] [0, 360, 720, 1080]
        none none none false false).scheduleNextRun ⟨3, 1081⟩).1 =
      some SchedErr.inPast :=
  ⟨rfl, by decide, by decide,
    c10_interval_weekday_gap.2.2.2 _ ⟨3, 1081⟩ rfl (by decide) (by decide)⟩

/-- C3, counterexample: the claim asserts that an immediately repeated
runPending call with the clock unchanged always executes zero tasks,
because run() always moves the next-run instant strictly past the current
instant.  With the clock exactly at the 11:30 slot of a daily task, the
first call runs the task and reschedules it to the very same instant, so
the repeated call runs it again. -/
theorem c3_counterexample :
    (runPending [wTask] ⟨7, 690⟩).2.1 = [0] ∧
    (runPending ((runPending [wTask] ⟨7, 690⟩).1) ⟨7, 690⟩).2.1 = [0] := by
  have hdue1 : dueIdx [wTask] ⟨7, 690⟩ = [0] := by decide
  have hrp1 : runPending [wTask] ⟨7, 690⟩ =
      ([{ wTask with last_run_at := some ⟨7, 690⟩ }], [0], none) := by
    rw [runPending, hdue1, sortIdx, List.mergeSort_singleton]
    decide
  have hdue2 :
      dueIdx [{ wTask with last_run_at := some ⟨7, 690⟩ }] ⟨7, 690⟩ = [0] := by
    decide
  have hrp2 :
      (runPending [{ wTask with last_run_at := some ⟨7, 690⟩ }] ⟨7, 690⟩).2.1 =
        [0] := by
    rw [runPending, hdue2, sortIdx, List.mergeSort_singleton]
    decide
  rw [hrp1]
  exact ⟨rfl, hrp2⟩

/-- C3 (amended): for a scheduler holding one well-behaved configured task,
a runPending call strictly before the next-run instant executes it zero
times; a call at or after executes it exactly once; and an immediately
repeated call with the clock unchanged executes it zero times provided the
current time of day is not exactly one of the run-at slots — run() moves
the next-run instant to an instant not earlier than the current one, with
equality possible exactly when the current time of day is itself a slot. -/
theorem c3_amended_run_pending (t : Task) (now nr : DateTime)
    (hok : TaskOK t) (hnr : t.nextRunAt = some nr) :
    (dtLT now nr → runPending [t] now = ([t], [], none)) ∧
    (dtLE nr now → ∃ t2,
      runPending [t] now = ([t2], [0], none) ∧
      (now.tod ∉ t.run_at →
        runPending [t2] now = ([t2], [], none))) := by
  obtain ⟨hf, hr, hd, _⟩ := hok
  constructor
  · intro hbefore
    have hsr : t.shouldRun now = false := by
      unfold Task.shouldRun
      rw [hnr]
      simp only [decide_eq_false_iff_not]
      unfold dtLT at hbefore
      unfold dtLE
      omega
    have hdue : dueIdx [t] now = [] := by
      unfold dueIdx
      have h1 : List.range (List.length [t]) = [0] := rfl
      rw [h1]
      have h0 : nth [t] 0 = t := rfl
      simp [h0, hsr]
    rw [runPending, hdue, sortIdx, List.mergeSort_nil]
    rfl
  · intro hafter
    have hsr : t.shouldRun now = true := by
      unfold Task.shouldRun
      rw [hnr]
      simpa using hafter
    have hdue : dueIdx [t] now = [0] := by
      unfold dueIdx
      have h1 : List.range (List.length [t]) = [0] := rfl
      rw [h1]
      have h0 : nth [t] 0 = t := rfl
      simp [h0, hsr]
    obtain ⟨d, tm, hrun, hmem, hle, heq⟩ := run_ok t now hf hr hd
    refine ⟨(t.run now).2, ?_, ?_⟩
    · rw [runPending, hdue, sortIdx, List.mergeSort_singleton]
      have h0 : nth [t] 0 = t := rfl
      simp [runStep, h0, hrun]
    · intro hnotin
      have hne : DateTime.mk d tm ≠ now := fun hh => hnotin (heq hh)
      have hnra : ((t.run now).2).nextRunAt = some ⟨d, tm⟩ := by
        rw [hrun]
        simp [Task.nextRunAt]
      have hsr2 : ((t.run now).2).shouldRun now = false := by
        unfold Task.shouldRun
        rw [hnra]
        simp only [decide_eq_false_iff_not]
        exact dtLE_antisymm_ne hle (fun hh => hne hh.symm)
      have hdue2 : dueIdx [(t.run now).2] now = [] := by
        unfold dueIdx
        have h1 : List.range (List.length [(t.run now).2]) = [0] := rfl
        rw [h1]
        have h0 : nth [(t.run now).2] 0 = (t.run now).2 := rfl
        simp [h0, hsr2]
      rw [runPending, hdue2, sortIdx, List.mergeSort_nil]
      rfl

/-- Materialisation on a conflicting task: the error, with the explicit
run-at list, scheduling state and configured flag untouched. -/
theorem materialise_conflict (t : Task) (h1 : t.run_at ≠ []) (h2 : t.hours ≠ []) :
    (materialise t).1 = some CfgErr.conflict ∧
    (materialise t).2.run_at = t.run_at ∧
    (materialise t).2.configured = t.configured ∧
    (materialise t).2.next_run_date = t.next_run_date ∧
    (materialise t).2.next_run_time = t.next_run_time := by
  unfold materialise
  by_cases hm : t.minutes = [] <;> simp [h1, h2, hm]

/-- Materialisation on a task it accepts: minute defaulting and the shape
of the resulting run-at list, other fields untouched. -/
theorem materialise_ok (t : Task) (h : (materialise t).1 = none) :
    (materialise t).2.minutes =
      (if t.hours ≠ [] ∧ t.minutes = [] then [0] else t.minutes) ∧
    (materialise t).2.run_at =
      (if t.hours ≠ [] then
        crossTimes t.hours (if t.minutes = [] then [0] else t.minutes)
      else t.run_at) ∧
    (materialise t).2.days = t.days ∧
    (materialise t).2.hours = t.hours ∧
    (materialise t).2.fails = t.fails ∧
    (materialise t).2.configured = t.configured := by
  unfold materialise at h ⊢
  by_cases hh : t.hours = []
  · by_cases hm : t.minutes = [] <;> simp [hh, hm]
  · by_cases hm : t.minutes = [] <;> simp [hh, hm] at h ⊢ <;> split_ifs at h ⊢ <;>
      simp_all

/-- The hour parse block writes only the hours field. -/
theorem parseHours_days (t0 : Task) (s : SpecStr) :
    ((parseHours t0 s).2).days = t0.days := by
  simp only [parseHours]
  split_ifs <;> rfl

/-- Parsing the spec string 0-23 yields the full hour range. -/
theorem parseHours_full_range (t0 : Task) :
    ((parseHours t0 ⟨0, [(Delim.dash, 23)]⟩).2).hours = List.range' 0 24 := rfl

/-- The minute parse block writes only the minutes field. -/
theorem parseMinutes_days (t0 : Task) (s : SpecStr) :
    ((parseMinutes t0 s).2).days = t0.days := by
  simp only [parseMinutes]
  split_ifs <;> rfl

/-- The minute parse block leaves the hours field alone. -/
theorem parseMinutes_hours (t0 : Task) (s : SpecStr) :
    ((parseMinutes t0 s).2).hours = t0.hours := by
  simp only [parseMinutes]
  split_ifs <;> rfl

/-! Evaluation lemmas for tokenised spec strings. -/

theorem specValues_pair (A : Nat) (d : Delim) (B : Nat) :
    specValues ⟨A, [(d, B)]⟩ = [A, B] := rfl

theorem specDelims_pair (A : Nat) (d : Delim) (B : Nat) :
    specDelims ⟨A, [(d, B)]⟩ = [d] := rfl

theorem delimKinds_pair (A : Nat) (d : Delim) (B : Nat) :
    delimKinds ⟨A, [(d, B)]⟩ = [d] := rfl

theorem specValues_single (v : Nat) : specValues ⟨v, []⟩ = [v] := rfl

theorem specDelims_single (v : Nat) : specDelims ⟨v, []⟩ = [] := rfl

theorem delimKinds_single (v : Nat) : delimKinds ⟨v, []⟩ = [] := rfl

theorem listMax_pair (A B : Nat) : listMax [A, B] = Nat.max A B := rfl

theorem listMax_single (v : Nat) : listMax [v] = v := rfl

theorem dedup_length_le_one {α : Type} [DecidableEq α] {l : List α} {a : α}
    (h : ∀ x ∈ l, x = a) : l.dedup.length ≤ 1 := by
  have hnd := l.nodup_dedup
  have hmem : ∀ x ∈ l.dedup, x = a := fun x hx => h x (List.mem_dedup.mp hx)
  rcases hl : l.dedup with _ | ⟨x, _ | ⟨y, rest⟩⟩
  · simp
  · simp
  · rw [hl] at hnd hmem
    have hx := hmem x (by simp)
    have hy := hmem y (by simp)
    have hxy : x ≠ y := by
      have hni := (List.nodup_cons.mp hnd).1
      intro hh
      rw [hh] at hni
      exact hni (by simp)
    exact absurd (hx.trans hy.symm) hxy

theorem one_lt_dedup_length {α : Type} [DecidableEq α] {l : List α} {a b : α}
    (ha : a ∈ l) (hb : b ∈ l) (hab : a ≠ b) : 1 < l.dedup.length := by
  have ha2 := List.mem_dedup.mpr ha
  have hb2 := List.mem_dedup.mpr hb
  rcases hl : l.dedup with _ | ⟨x, _ | ⟨y, rest⟩⟩
  · rw [hl] at ha2
    cases ha2
  · rw [hl] at ha2 hb2
    simp at ha2 hb2
    exact absurd (ha2.trans hb2.symm) hab
  · simp

/-- The Python slice DAYS[A : B + 1] is the interval from A to B. -/
theorem days_slice_eq_range (A B : Nat) (h1 : A ≤ B) (h2 : B ≤ 6) :
    ((DAYS.drop A).take (B + 1 - A)) = List.range' A (B + 1 - A) := by
  unfold DAYS
  interval_cases B <;> interval_cases A <;> decide

/-- A range spec string is one of the two literal forms. -/
theorem isRange_eq {s : SpecStr} {A B : Nat} (h : isRange s A B) :
    s = ⟨A, [(Delim.dash, B)]⟩ ∨ s = ⟨A, [(Delim.colon, B)]⟩ := by
  obtain ⟨f, rest⟩ := s
  obtain ⟨h1, h2 | h2⟩ := h
  · exact Or.inl (by rw [SpecStr.mk.injEq]; exact ⟨h1, h2⟩)
  · exact Or.inr (by rw [SpecStr.mk.injEq]; exact ⟨h1, h2⟩)

/-- The hour parse block meets the parser claim with domain bound 23. -/
theorem parseHours_setterSpec : setterSpec parseHours Task.hours 23 := by
  refine ⟨?_, ?_, ?_, ?_, ?_, ?_, ?_⟩
  · intro t0 A B s hR hAB hB
    rcases isRange_eq hR with hs | hs <;> subst hs <;>
    · have hmax : listMax [A, B] ≤ 23 := by
        rw [listMax_pair]
        unfold Nat.max
        omega
      unfold parseHours
      simp only [specValues_pair, specDelims_pair, delimKinds_pair,
        List.getD_cons_zero, List.getD_cons_succ]
      rw [if_neg (by decide), if_neg (not_not_intro hmax), if_neg (by simp),
        if_neg (by decide), if_pos (by simp),
        if_neg (show ¬ (B < A) from by omega)]
      exact ⟨rfl, rfl⟩
  · intro t0 s hcl hne hdom
    have hkinds : ¬ 1 < (delimKinds s).length := by
      have hle := dedup_length_le_one (l := specDelims s) (a := Delim.comma)
        (by
          intro x hx
          obtain ⟨p, hp, hpe⟩ := List.mem_map.mp hx
          rw [← hpe]
          exact hcl p hp)
      unfold delimKinds
      omega
    have hcm : Delim.comma ∈ specDelims s := by
      obtain ⟨p, ps, hps⟩ := List.exists_cons_of_ne_nil hne
      have hp1 : p.1 = Delim.comma := hcl p (by rw [hps]; simp)
      unfold specDelims
      rw [hps]
      simp [hp1]
    have hmax : listMax (specValues s) ≤ 23 := listMax_le hdom
    unfold parseHours
    rw [if_neg hkinds, if_neg (not_not_intro hmax),
      if_neg (fun hc => hc.2 hcm), if_pos hcm]
    exact ⟨rfl, rfl⟩
  · intro t0 v hv
    unfold parseHours
    simp only [specValues_single, specDelims_single, delimKinds_single]
    rw [if_neg (by decide),
      if_neg (not_not_intro (by rw [listMax_single]; omega)),
      if_neg (by simp), if_neg (by decide), if_neg (by simp)]
    exact ⟨rfl, rfl⟩
  · intro t0 s hmix
    obtain ⟨d1, hd1, d2, hd2, hne⟩ := hmix
    unfold parseHours
    rw [if_pos (show 1 < (delimKinds s).length from
      one_lt_dedup_length hd1 hd2 hne)]
    rfl
  · intro t0 s hd hlen
    obtain ⟨d, hdmem, hdnc⟩ := hd
    by_cases hmix : 1 < (delimKinds s).length
    · unfold parseHours
      rw [if_pos hmix]
      rfl
    · have hnc : Delim.comma ∉ specDelims s := by
        intro hc
        exact hmix (one_lt_dedup_length hc hdmem (fun hh => hdnc hh.symm))
      unfold parseHours
      rw [if_neg hmix]
      by_cases hdom : listMax (specValues s) ≤ 23
      · rw [if_neg (not_not_intro hdom), if_pos ⟨hlen, hnc⟩]
        rfl
      · rw [if_pos hdom]
        rfl
  · intro t0 s A B hR hBA
    rcases isRange_eq hR with hs | hs <;> subst hs <;>
    · unfold parseHours
      simp only [specValues_pair, specDelims_pair, delimKinds_pair,
        List.getD_cons_zero, List.getD_cons_succ]
      rw [if_neg (by decide)]
      by_cases hdom : listMax [A, B] ≤ 23
      · rw [if_neg (not_not_intro hdom), if_neg (by simp), if_neg (by decide),
          if_pos (by simp), if_pos hBA]
        rfl
      · rw [if_pos hdom]
        rfl
  · intro t0 s hv
    obtain ⟨v, hvmem, hvgt⟩ := hv
    by_cases hmix : 1 < (delimKinds s).length
    · unfold parseHours
      rw [if_pos hmix]
      rfl
    · have hdom : ¬ listMax (specValues s) ≤ 23 := by
        have := le_listMax hvmem
        omega
      unfold parseHours
      rw [if_neg hmix, if_pos hdom]
      rfl

/-- The minute parse block meets the parser claim with domain bound 59. -/
theorem parseMinutes_setterSpec : setterSpec parseMinutes Task.minutes 59 := by
  refine ⟨?_, ?_, ?_, ?_, ?_, ?_, ?_⟩
  · intro t0 A B s hR hAB hB
    rcases isRange_eq hR with hs | hs <;> subst hs <;>
    · have hmax : listMax [A, B] ≤ 59 := by
        rw [listMax_pair]
        unfold Nat.max
        omega
      unfold parseMinutes
      simp only [specValues_pair, specDelims_pair, delimKinds_pair,
        List.getD_cons_zero, List.getD_cons_succ]
      rw [if_neg (by decide), if_neg (not_not_intro hmax), if_neg (by simp),
        if_neg (by decide), if_pos (by simp),
        if_neg (show ¬ (B < A) from by omega)]
      exact ⟨rfl, rfl⟩
  · intro t0 s hcl hne hdom
    have hkinds : ¬ 1 < (delimKinds s).length := by
      have hle := dedup_length_le_one (l := specDelims s) (a := Delim.comma)
        (by
          intro x hx
          obtain ⟨p, hp, hpe⟩ := List.mem_map.mp hx
          rw [← hpe]
          exact hcl p hp)
      unfold delimKinds
      omega
    have hcm : Delim.comma ∈ specDelims s := by
      obtain ⟨p, ps, hps⟩ := List.exists_cons_of_ne_nil hne
      have hp1 : p.1 = Delim.comma := hcl p (by rw [hps]; simp)
      unfold specDelims
      rw [hps]
      simp [hp1]
    have hmax : listMax (specValues s) ≤ 59 := listMax_le hdom
    unfold parseMinutes
    rw [if_neg hkinds, if_neg (not_not_intro hmax),
      if_neg (fun hc => hc.2 hcm), if_pos hcm]
    exact ⟨rfl, rfl⟩
  · intro t0 v hv
    unfold parseMinutes
    simp only [specValues_single, specDelims_single, delimKinds_single]
    rw [if_neg (by decide),
      if_neg (not_not_intro (by rw [listMax_single]; omega)),
      if_neg (by simp), if_neg (by decide), if_neg (by simp)]
    exact ⟨rfl, rfl⟩
  · intro t0 s hmix
    obtain ⟨d1, hd1, d2, hd2, hne⟩ := hmix
    unfold parseMinutes
    rw [if_pos (show 1 < (delimKinds s).length from
      one_lt_dedup_length hd1 hd2 hne)]
    rfl
  · intro t0 s hd hlen
    obtain ⟨d, hdmem, hdnc⟩ := hd
    by_cases hmix : 1 < (delimKinds s).length
    · unfold parseMinutes
      rw [if_pos hmix]
      rfl
    · have hnc : Delim.comma ∉ specDelims s := by
        intro hc
        exact hmix (one_lt_dedup_length hc hdmem (fun hh => hdnc hh.symm))
      unfold parseMinutes
      rw [if_neg hmix]
      by_cases hdom : listMax (specValues s) ≤ 59
      · rw [if_neg (not_not_intro hdom), if_pos ⟨hlen, hnc⟩]
        rfl
      · rw [if_pos hdom]
        rfl
  · intro t0 s A B hR hBA
    rcases isRange_eq hR with hs | hs <;> subst hs <;>
    · unfold parseMinutes
      simp only [specValues_pair, specDelims_pair, delimKinds_pair,
        List.getD_cons_zero, List.getD_cons_succ]
      rw [if_neg (by decide)]
      by_cases hdom : listMax [A, B] ≤ 59
      · rw [if_neg (not_not_intro hdom), if_neg (by simp), if_neg (by decide),
          if_pos (by simp), if_pos hBA]
        rfl
      · rw [if_pos hdom]
        rfl
  · intro t0 s hv
    obtain ⟨v, hvmem, hvgt⟩ := hv
    by_cases hmix : 1 < (delimKinds s).length
    · unfold parseMinutes
      rw [if_pos hmix]
      rfl
    · have hdom : ¬ listMax (specValues s) ≤ 59 := by
        have := le_listMax hvmem
        omega
      unfold parseMinutes
      rw [if_neg hmix, if_pos hdom]
      rfl

/-- The day setter meets the parser claim with domain bound 6. -/
theorem onDays_setterSpec : setterSpec Task.onDays Task.days 6 := by
  refine ⟨?_, ?_, ?_, ?_, ?_, ?_, ?_⟩
  · intro t0 A B s hR hAB hB
    rcases isRange_eq hR with hs | hs <;> subst hs <;>
    · have hany : ¬ ([A, B].any (fun v => decide (6 < v)) = true) := by
        simp
        omega
      unfold Task.onDays
      simp only [specValues_pair, specDelims_pair, delimKinds_pair,
        List.getD_cons_zero, List.getD_cons_succ]
      rw [if_neg (by decide), if_neg hany, if_neg (by simp),
        if_neg (by decide), if_pos (by simp),
        if_neg (show ¬ (B < A) from by omega)]
      exact ⟨rfl, by
        show ((DAYS.drop A).take (B + 1 - A)) = _
        exact days_slice_eq_range A B hAB hB⟩
  · intro t0 s hcl hne hdom
    have hkinds : ¬ 1 < (delimKinds s).length := by
      have hle := dedup_length_le_one (l := specDelims s) (a := Delim.comma)
        (by
          intro x hx
          obtain ⟨p, hp, hpe⟩ := List.mem_map.mp hx
          rw [← hpe]
          exact hcl p hp)
      unfold delimKinds
      omega
    have hcm : Delim.comma ∈ specDelims s := by
      obtain ⟨p, ps, hps⟩ := List.exists_cons_of_ne_nil hne
      have hp1 : p.1 = Delim.comma := hcl p (by rw [hps]; simp)
      unfold specDelims
      rw [hps]
      simp [hp1]
    have hany : ¬ ((specValues s).any (fun v => decide (6 < v)) = true) := by
      rw [List.any_eq_true]
      rintro ⟨v, hvm, hvp⟩
      have := hdom v hvm
      simp at hvp
      omega
    unfold Task.onDays
    rw [if_neg hkinds, if_neg hany, if_neg (fun hc => hc.2 hcm), if_pos hcm]
    exact ⟨rfl, rfl⟩
  · intro t0 v hv
    have hany : ¬ ([v].any (fun x => decide (6 < x)) = true) := by
      simp
      omega
    unfold Task.onDays
    simp only [specValues_single, specDelims_single, delimKinds_single]
    rw [if_neg (by decide), if_neg hany, if_neg (by simp), if_neg (by decide),
      if_neg (by simp)]
    exact ⟨rfl, rfl⟩
  · intro t0 s hmix
    obtain ⟨d1, hd1, d2, hd2, hne⟩ := hmix
    unfold Task.onDays
    rw [if_pos (show 1 < (delimKinds s).length from
      one_lt_dedup_length hd1 hd2 hne)]
    rfl
  · intro t0 s hd hlen
    obtain ⟨d, hdmem, hdnc⟩ := hd
    by_cases hmix : 1 < (delimKinds s).length
    · unfold Task.onDays
      rw [if_pos hmix]
      rfl
    · have hnc : Delim.comma ∉ specDelims s := by
        intro hc
        exact hmix (one_lt_dedup_length hc hdmem (fun hh => hdnc hh.symm))
      unfold Task.onDays
      rw [if_neg hmix]
      by_cases hany : (specValues s).any (fun v => decide (6 < v)) = true
      · rw [if_pos hany]
        rfl
      · rw [if_neg hany, if_pos ⟨hlen, hnc⟩]
        rfl
  · intro t0 s A B hR hBA
    rcases isRange_eq hR with hs | hs <;> subst hs <;>
    · unfold Task.onDays
      simp only [specValues_pair, specDelims_pair, delimKinds_pair,
        List.getD_cons_zero, List.getD_cons_succ]
      rw [if_neg (by decide)]
      by_cases hany : ([A, B].any (fun v => decide (6 < v)) = true)
      · rw [if_pos hany]
        rfl
      · rw [if_neg hany, if_neg (by simp), if_neg (by decide),
          if_pos (by simp), if_pos hBA]
        rfl
  · intro t0 s hv
    obtain ⟨v, hvmem, hvgt⟩ := hv
    by_cases hmix : 1 < (delimKinds s).length
    · unfold Task.onDays
      rw [if_pos hmix]
      rfl
    · have hany : (specValues s).any (fun x => decide (6 < x)) = true := by
        rw [List.any_eq_true]
        exact ⟨v, hvmem, by simpa using hvgt⟩
      unfold Task.onDays
      rw [if_neg hmix, if_pos hany]
      rfl

/-- C4: each range/list setter parses a valid range A-B or A:B into the
closed interval [A, B] in ascending order, a comma list into exactly the
listed values in order, and a bare in-domain value into a singleton; it
raises on mixed delimiter kinds, a range delimiter with more than two
values, an inverted range, or any out-of-domain value. -/
theorem c4_spec_parsing :
    setterSpec Task.onDays Task.days 6 ∧
    setterSpec Task.atHours Task.hours 23 ∧
    setterSpec Task.atMinutes Task.minutes 59 := by
  refine ⟨onDays_setterSpec, ?_, ?_⟩
  · obtain ⟨h1, h2, h3, h4, h5, h6, h7⟩ := parseHours_setterSpec
    exact ⟨fun t A B s ha hb hc => h1 _ A B s ha hb hc,
      fun t s ha hb hc => h2 _ s ha hb hc,
      fun t v hv => h3 _ v hv,
      fun t s ha => h4 _ s ha,
      fun t s ha hb => h5 _ s ha hb,
      fun t s A B ha hb => h6 _ s A B ha hb,
      fun t s ha => h7 _ s ha⟩
  · obtain ⟨h1, h2, h3, h4, h5, h6, h7⟩ := parseMinutes_setterSpec
    exact ⟨fun t A B s ha hb hc => h1 _ A B s ha hb hc,
      fun t s ha hb hc => h2 _ s ha hb hc,
      fun t v hv => h3 _ v hv,
      fun t s ha => h4 _ s ha,
      fun t s ha hb => h5 _ s ha hb,
      fun t s A B ha hb => h6 _ s A B ha hb,
      fun t s ha => h7 _ s ha⟩

/-- Witness for C4: the range 9:12 parsed as hours gives [9, 10, 11, 12]
with no error. -/
theorem c4_witness :
    isRange ⟨9, [(Delim.colon, 12)]⟩ 9 12 ∧ 9 ≤ 12 ∧ 12 ≤ 23 ∧
    ((newTask.atHours ⟨9, [(Delim.colon, 12)]⟩).1 = none ∧
      ((newTask.atHours ⟨9, [(Delim.colon, 12)]⟩).2).hours =
        List.range' 9 (12 + 1 - 9)) :=
  ⟨⟨rfl, Or.inr rfl⟩, by omega, by omega,
    c4_spec_parsing.2.1.1 newTask 9 12 ⟨9, [(Delim.colon, 12)]⟩
      ⟨rfl, Or.inr rfl⟩ (by omega) (by omega)⟩

/-- C7: binding a task with a nonempty hour set and empty minute set first
defaults the minute set to [0]; whenever the hour set is nonempty (so the
defaulted minute set is too), the finalized run-at list is exactly the
cross product of hours and minutes in product order; otherwise the run-at
list is exactly the explicit entries accumulated via at(). -/
theorem c7_materialisation (t : Task) (c : List Task) (now : DateTime)
    (h : (doBind t c now).1 = none) :
    ((doBind t c now).2.1).minutes =
      (if t.hours ≠ [] ∧ t.minutes = [] then [0] else t.minutes) ∧
    ((doBind t c now).2.1).run_at =
      (if t.hours ≠ [] then
        crossTimes t.hours (if t.minutes = [] then [0] else t.minutes)
      else t.run_at) := by
  unfold doBind at h ⊢
  rcases hmat : materialise t with ⟨me, t2⟩
  rw [hmat] at h
  cases me with
  | some e => simp at h
  | none =>
    dsimp only at h ⊢
    rcases hsch : Task.scheduleNextRun t2 now with ⟨se, t3⟩
    rw [hsch] at h
    cases se with
    | some e => simp at h
    | none =>
      dsimp only
      have hf := scheduleNextRun_fields t2 now
      rw [hsch] at hf
      dsimp only at hf
      have hmo := materialise_ok t (by rw [hmat])
      rw [hmat] at hmo
      dsimp only at hmo
      exact ⟨hf.2.2.1.trans hmo.1, hf.2.2.2.1.trans hmo.2.1⟩

/-- Witness for C7: a task with hours = [9] and no minutes or explicit
times, bound early on a Monday, gets minutes [0] and the single slot
09:00. -/
theorem c7_witness :
    (doBind (Task.mk [] [9] [] [] none none none false false) [] ⟨0, 0⟩).1 =
      none ∧
    ((doBind (Task.mk [] [9] [] [] none none none false false) [] ⟨0, 0⟩).2.1).minutes =
      (if (Task.mk [] [9] [] [] none none none false false).hours ≠ [] ∧
          (Task.mk [] [9] [] [] none none none false false).minutes = []
        then [0] else (Task.mk [] [9] [] [] none none none false false).minutes) ∧
    ((doBind (Task.mk [] [9] [] [] none none none false false) [] ⟨0, 0⟩).2.1).run_at =
      (if (Task.mk [] [9] [] [] none none none false false).hours ≠ [] then
        crossTimes (Task.mk [] [9] [] [] none none none false false).hours
          (if (Task.mk [] [9] [] [] none none none false false).minutes = []
            then [0]
            else (Task.mk [] [9] [] [] none none none false false).minutes)
      else (Task.mk [] [9] [] [] none none none false false).run_at) :=
  ⟨by decide,
   (c7_materialisation (Task.mk [] [9] [] [] none none none false false) []
     ⟨0, 0⟩ (by decide)).1,
   (c7_materialisation (Task.mk [] [9] [] [] none none none false false) []
     ⟨0, 0⟩ (by decide)).2⟩

/-- C8: binding a task that has both explicit at() entries and an hour set
raises the conflict error; the scheduler task list is unchanged, the task
is not marked configured, and no scheduling state is written. -/
theorem c8_conflict_bind (t : Task) (c : List Task) (now : DateTime)
    (h1 : t.run_at ≠ []) (h2 : t.hours ≠ []) (h3 : t.configured = false) :
    (doBind t c now).1 = some CfgErr.conflict ∧
    (doBind t c now).2.2 = c ∧
    ((doBind t c now).2.1).configured = false ∧
    ((doBind t c now).2.1).next_run_date = t.next_run_date ∧
    ((doBind t c now).2.1).next_run_time = t.next_run_time := by
  obtain ⟨he, hra, hcf, hnd, hnt⟩ := materialise_conflict t h1 h2
  unfold doBind
  rcases hmat : materialise t with ⟨me, t1⟩
  rw [hmat] at he hcf hnd hnt
  simp only [] at he hcf hnd hnt
  subst he
  exact ⟨rfl, rfl, by rw [← h3]; exact hcf, hnd, hnt⟩

/-- Witness for C8: a task with one explicit 09:30 slot and hours [9]. -/
theorem c8_witness :
    (Task.mk [0, 1, 2, 3, 4, 5, 6] [9] [] [570] none none none false
        false).run_at ≠ [] ∧
    (Task.mk [0, 1, 2, 3, 4, 5, 6] [9] [] [570] none none none false
        false).hours ≠ [] ∧
    (doBind (Task.mk [0, 1, 2, 3, 4, 5, 6] [9] [] [570] none none none false
        false) [wTask] ⟨0, 0⟩).1 = some CfgErr.conflict ∧
    (doBind (Task.mk [0, 1, 2, 3, 4, 5, 6] [9] [] [570] none none none false
        false) [wTask] ⟨0, 0⟩).2.2 = [wTask] ∧
    ((doBind (Task.mk [0, 1, 2, 3, 4, 5, 6] [9] [] [570] none none none false
        false) [wTask] ⟨0, 0⟩).2.1).configured = false :=
  ⟨by decide, by decide,
   (c8_conflict_bind _ [wTask] ⟨0, 0⟩ (by decide) (by decide) rfl).1,
   (c8_conflict_bind _ [wTask] ⟨0, 0⟩ (by decide) (by decide) rfl).2.1,
   (c8_conflict_bind _ [wTask] ⟨0, 0⟩ (by decide) (by decide) rfl).2.2.1⟩

/-- C9: at_hours defaults an empty weekday set to all seven days; at_minutes
does the same and additionally defaults an empty hour set to the full 0-23
range; at() defaults an empty weekday set to all seven days; a weekday or
hour set that is already nonempty is never altered by these preludes. -/
theorem c9_defaulting :
    (∀ (t : Task) (s : SpecStr),
      ((t.atHours s).2).days = if t.days = [] then DAYS else t.days) ∧
    (∀ (t : Task) (s : SpecStr),
      ((t.atMinutes s).2).days = if t.days = [] then DAYS else t.days) ∧
    (∀ (t : Task) (s : SpecStr),
      ((t.atMinutes s).2).hours =
        if t.hours = [] then List.range' 0 24 else t.hours) ∧
    (∀ (t : Task) (h m : Nat),
      ((t.at h m).2).days = if t.days = [] then DAYS else t.days) := by
  have hah : ∀ (t : Task) (s : SpecStr),
      ((t.atHours s).2).days = if t.days = [] then DAYS else t.days := by
    intro t s
    unfold Task.atHours
    rw [parseHours_days]
    by_cases hdd : t.days = [] <;> simp [hdd, Task.everyDay]
  have hpre : ∀ t : Task,
      (minutesPrelude t).days = if t.days = [] then DAYS else t.days := by
    intro t
    unfold minutesPrelude
    simp only []
    by_cases hdd : t.days = []
    · rw [if_pos hdd]
      by_cases hhh : (t.everyDay).hours = []
      · rw [if_pos hhh, hah]
        simp [Task.everyDay, hdd]
      · rw [if_neg hhh]
        simp [Task.everyDay, hdd]
    · rw [if_neg hdd]
      by_cases hhh : t.hours = []
      · rw [if_pos hhh, hah]
      · rw [if_neg hhh]
        simp [hdd]
  have hpreh : ∀ t : Task,
      (minutesPrelude t).hours =
        if t.hours = [] then List.range' 0 24 else t.hours := by
    intro t
    unfold minutesPrelude
    simp only []
    by_cases hdd : t.days = []
    · rw [if_pos hdd]
      by_cases hhh : (t.everyDay).hours = []
      · rw [if_pos hhh]
        unfold Task.atHours
        rw [parseHours_full_range]
        have hth : t.hours = [] := by simpa [Task.everyDay] using hhh
        rw [if_pos hth]
      · rw [if_neg hhh]
        have hth : ¬ t.hours = [] := by simpa [Task.everyDay] using hhh
        rw [if_neg hth]
        simp [Task.everyDay]
    · rw [if_neg hdd]
      by_cases hhh : t.hours = []
      · rw [if_pos hhh]
        unfold Task.atHours
        rw [parseHours_full_range, if_pos hhh]
      · rw [if_neg hhh, if_neg hhh]
  refine ⟨hah, ?_, ?_, ?_⟩
  · intro t s
    unfold Task.atMinutes
    rw [parseMinutes_days, hpre]
  · intro t s
    unfold Task.atMinutes
    rw [parseMinutes_hours, hpreh]
  · intro t h m
    unfold Task.at Task.everyDay
    by_cases hdd : t.days = [] <;> simp [hdd] <;> split_ifs <;> rfl

/-- An in-range index of the task list picks a member. -/
theorem nth_mem {ts : List Task} {i : Nat} (h : i < ts.length) :
    nth ts i ∈ ts := by
  unfold nth
  rw [List.getD_eq_getElem?_getD, List.getElem?_eq_getElem h]
  simp

/-- Sorting the snapshot does not change its membership. -/
theorem mem_sortIdx {ts : List Task} {l : List Nat} {i : Nat} :
    i ∈ sortIdx ts l ↔ i ∈ l := List.mem_mergeSort

/-- C5: runPending executes exactly the registered tasks whose next-run
instant is at or before the current instant; the executed sequence is the
stable sort of the due snapshot taken from the pre-call scheduler state, so
it is ascending in next-run instant with ties broken by registration
order, and rescheduling during the batch cannot change it.  Every
registered task is assumed well behaved (configured, valid schedule, work
unit returning normally), the regime claim C6 covers failures. -/
theorem c5_run_pending (ts : List Task) (now : DateTime)
    (hval : ∀ t ∈ ts, TaskOK t) :
    (runPending ts now).2.1 = sortIdx ts (dueIdx ts now) ∧
    (runPending ts now).2.2 = none ∧
    (∀ i, i ∈ sortIdx ts (dueIdx ts now) ↔
      (i < ts.length ∧ (nth ts i).shouldRun now = true)) ∧
    (sortIdx ts (dueIdx ts now)).Pairwise (fun i j =>
      taskLT (nth ts i) (nth ts j) ∨
      (¬ taskLT (nth ts i) (nth ts j) ∧ ¬ taskLT (nth ts j) (nth ts i) ∧
        i < j)) := by
  have hmemb : ∀ i, i ∈ sortIdx ts (dueIdx ts now) ↔
      (i < ts.length ∧ (nth ts i).shouldRun now = true) := by
    intro i
    rw [mem_sortIdx]
    exact mem_dueIdx
  have hok : ∀ i ∈ sortIdx ts (dueIdx ts now),
      i < ts.length ∧ TaskOK (nth ts i) := by
    intro i hi
    have h1 := (hmemb i).mp hi
    exact ⟨h1.1, hval _ (nth_mem h1.1)⟩
  obtain ⟨ts2, hfold, hlen, hpres⟩ :=
    foldl_runStep_ok now (sortIdx ts (dueIdx ts now)) ts [] hok
  have hnodup : (sortIdx ts (dueIdx ts now)).Nodup :=
    ((sortIdx_perm ts (dueIdx ts now)).nodup_iff).mpr (dueIdx_nodup ts now)
  refine ⟨?_, ?_, hmemb, ?_⟩
  · unfold runPending
    rw [hfold]
    simp
  · unfold runPending
    rw [hfold]
  · rw [List.pairwise_iff_forall_sublist]
    intro a b hab
    have hle := List.pairwise_iff_forall_sublist.mp
      (sortIdx_sorted ts (dueIdx ts now)) hab
    have hba : ¬ taskLT (nth ts b) (nth ts a) := by simpa using hle
    by_cases hlt : taskLT (nth ts a) (nth ts b)
    · exact Or.inl hlt
    · have hne : a ≠ b := by
        intro hh
        subst hh
        exact not_pair_self_sublist hnodup hab
      have hamem : a ∈ dueIdx ts now := mem_sortIdx.mp (hab.mem (by simp))
      have hbmem : b ∈ dueIdx ts now := mem_sortIdx.mp (hab.mem (by simp))
      have hablt : a < b := by
        rcases Nat.lt_or_ge a b with h | h
        · exact h
        · exfalso
          have hba2 : b < a := by omega
          have hsub : List.Sublist [b, a] (dueIdx ts now) :=
            pair_sublist_of_pairwise_lt (dueIdx_sorted ts now) hbmem hamem hba2
          have hstable : List.Sublist [b, a] (sortIdx ts (dueIdx ts now)) :=
            sortIdx_stable (by simpa using hlt) hsub
          exact hne (sublist_pair_antisymm hnodup hab hstable)
      exact Or.inr ⟨hlt, hba, hablt⟩

/-- Witness for C5: a single due task runs as the whole batch. -/
theorem c5_witness :
    (∀ t ∈ [wTask], TaskOK t) ∧
    ((runPending [wTask] ⟨7, 800⟩).2.1 =
        sortIdx [wTask] (dueIdx [wTask] ⟨7, 800⟩) ∧
      (runPending [wTask] ⟨7, 800⟩).2.2 = none ∧
      (∀ i, i ∈ sortIdx [wTask] (dueIdx [wTask] ⟨7, 800⟩) ↔
        (i < List.length [wTask] ∧
          (nth [wTask] i).shouldRun ⟨7, 800⟩ = true)) ∧
      (sortIdx [wTask] (dueIdx [wTask] ⟨7, 800⟩)).Pairwise (fun i j =>
        taskLT (nth [wTask] i) (nth [wTask] j) ∨
        (¬ taskLT (nth [wTask] i) (nth [wTask] j) ∧
          ¬ taskLT (nth [wTask] j) (nth [wTask] i) ∧ i < j))) :=
  ⟨by decide, c5_run_pending [wTask] ⟨7, 800⟩ (by decide)⟩

/-- C6: when the work unit of a due task raises, the exception propagates
out of run() and out of runPending: the tasks of the batch before it ran,
the failing task was invoked, the remaining due tasks are not executed,
and the failing task keeps its last-run timestamp and next-run instant
(no rescheduling happens on failure). -/
theorem c6_work_unit_failure (ts : List Task) (now : DateTime)
    (pre post : List Nat) (k : Nat)
    (hbatch : sortIdx ts (dueIdx ts now) = pre ++ k :: post)
    (hpre : ∀ i ∈ pre, TaskOK (nth ts i))
    (hk : (nth ts k).fails = true) :
    (runPending ts now).2.1 = pre ++ [k] ∧
    (runPending ts now).2.2 = some RunErr.workUnit ∧
    nth ((runPending ts now).1) k = nth ts k := by
  have hnodup : (sortIdx ts (dueIdx ts now)).Nodup :=
    ((sortIdx_perm ts (dueIdx ts now)).nodup_iff).mpr (dueIdx_nodup ts now)
  rw [hbatch] at hnodup
  obtain ⟨hnp, hnkp, hdisj⟩ := List.nodup_append.mp hnodup
  have hknotpre : k ∉ pre := fun hkp => hdisj hkp (by simp)
  have hprelen : ∀ i ∈ pre, i < ts.length ∧ TaskOK (nth ts i) := by
    intro i hi
    refine ⟨?_, hpre i hi⟩
    have hib : i ∈ sortIdx ts (dueIdx ts now) := by
      rw [hbatch]
      exact List.mem_append_left _ hi
    exact (mem_dueIdx.mp (mem_sortIdx.mp hib)).1
  have hklen : k < ts.length := by
    have hib : k ∈ sortIdx ts (dueIdx ts now) := by
      rw [hbatch]
      exact List.mem_append_right _ (by simp)
    exact (mem_dueIdx.mp (mem_sortIdx.mp hib)).1
  obtain ⟨ts1, hfold, hlen1, hpres⟩ := foldl_runStep_ok now pre ts [] hprelen
  simp only [List.nil_append] at hfold
  have hk1 : nth ts1 k = nth ts k := hpres k hknotpre
  unfold runPending
  rw [hbatch, List.foldl_append, hfold, List.foldl_cons]
  have hstep : runStep now (ts1, pre, none) k =
      (ts1.set k (nth ts k), pre ++ [k], some RunErr.workUnit) := by
    simp [runStep, Task.run, hk1, hk]
  rw [hstep, foldl_runStep_err]
  refine ⟨rfl, rfl, ?_⟩
  rw [nth_set_self ts1 k _ (by omega)]

/-- Witness for C6: a single due task whose work unit raises is invoked,
the exception propagates, and the task keeps its schedule. -/
theorem c6_witness :
    sortIdx [fTask] (dueIdx [fTask] ⟨7, 800⟩) = [] ++ 0 :: [] ∧
    (nth [fTask] 0).fails = true ∧
    ((runPending [fTask] ⟨7, 800⟩).2.1 = [] ++ [0] ∧
      (runPending [fTask] ⟨7, 800⟩).2.2 = some RunErr.workUnit ∧
      nth ((runPending [fTask] ⟨7, 800⟩).1) 0 = nth [fTask] 0) := by
  have hdue : dueIdx [fTask] ⟨7, 800⟩ = [0] := by decide
  have hb : sortIdx [fTask] (dueIdx [fTask] ⟨7, 800⟩) = [] ++ 0 :: [] := by
    rw [hdue, sortIdx, List.mergeSort_singleton]
    rfl
  exact ⟨hb, by decide,
    c6_work_unit_failure [fTask] ⟨7, 800⟩ [] [] 0 hb (by simp) (by decide)⟩

/-- Witness for C9 at concrete tasks: defaulting fires on the fresh task
and leaves nonempty sets alone. -/
theorem c9_witness :
    ((newTask.atHours ⟨9, []⟩).2).days =
      (if newTask.days = [] then DAYS else newTask.days) ∧
    ((newTask.atMinutes ⟨30, []⟩).2).hours =
      (if newTask.hours = [] then List.range' 0 24 else newTask.hours) ∧
    ((wTask.at 9 30).2).days =
      (if wTask.days = [] then DAYS else wTask.days) :=
  ⟨c9_defaulting.1 newTask ⟨9, []⟩,
   c9_defaulting.2.2.1 newTask ⟨30, []⟩,
   c9_defaulting.2.2.2 wTask 9 30⟩

/-- Witness for the amended C3 statement: the daily 11:30 task before,
at a later non-slot instant, and repeated at that same instant. -/
theorem c3_amended_witness :
    TaskOK wTask ∧ wTask.nextRunAt = some ⟨7, 690⟩ ∧
    (dtLT ⟨7, 500⟩ ⟨7, 690⟩ →
      runPending [wTask] ⟨7, 500⟩ = ([wTask], [], none)) ∧
    (dtLE ⟨7, 690⟩ ⟨7, 800⟩ → ∃ t2,
      runPending [wTask] ⟨7, 800⟩ = ([t2], [0], none) ∧
      ((DateTime.mk 7 800).tod ∉ wTask.run_at →
        runPending [t2] ⟨7, 800⟩ = ([t2], [], none))) :=
  ⟨by decide, by decide,
   (c3_amended_run_pending wTask ⟨7, 500⟩ ⟨7, 690⟩ (by decide) (by decide)).1,
   (c3_amended_run_pending wTask ⟨7, 800⟩ ⟨7, 690⟩ (by decide) (by decide)).2⟩

end Cronpy
